import Mathlib

/-!
Verification of the tag-store behaviour of `src/exts/tags.py` (the `Tags`
extension of goverfl0w/slash-bot).

The extension performs single-record CRUD operations against a document
database through the `Tag` document model.  We embed the database as an
explicit list of tag documents together with the id counter the store uses
to assign fresh ids, and each handler of `tags.py` as a pure function on
that state.  Timestamps (`datetime.datetime.now()`) are passed in
explicitly as a `now : Nat` parameter.

Database semantics embedded here:
  * `Tag.find_one(Tag.name == n)` — first document whose `name` equals `n`;
  * `Tag.get(id)` — first document whose `id` equals the given id
    (`_id` is the primary key, so ids are unique; theorems that need this
    take a `Nodup` hypothesis on the ids);
  * `.insert()` — appends a new document, assigning the next fresh id;
  * `.save()` — overwrites the document having the same id, in place;
  * `.delete()` — removes the document having that id;
  * `Tag.find_all()` — all documents in insertion order;
  * `Tag.find_all(limit=25)` — the first 25 documents.
-/

namespace SlashBot

/-- The `Tag` document (`common.models.Tag` as used by `src/exts/tags.py`):
fields `id`, `name`, `description`, `author_id`, `created_at`,
`last_edited_at` (absent until the first edit). -/
structure Tag where
  id : Nat
  name : String
  description : String
  author_id : String
  created_at : Nat
  last_edited_at : Option Nat
deriving DecidableEq, Repr

/-- The database state: the stored tag documents in insertion order, plus
the next fresh id the store will assign. -/
structure Store where
  tags : List Tag
  nextId : Nat
deriving DecidableEq, Repr

/-- The error taxonomy of the spec: `NotFound` for a missing lookup/edit/
delete target, `AlreadyExists` for a create with a duplicate name. -/
inductive StoreError where
  | AlreadyExists
  | NotFound
deriving DecidableEq, Repr

/-- `Tag.find_one(Tag.name == n)`: first stored tag named `n`
(also the spec's `find_by_exact_name`). -/
def findOne (tags : List Tag) (n : String) : Option Tag :=
  tags.find? (fun t => t.name == n)

/-- `Tag.get(id)`: the tag document with the given id. -/
def getById (tags : List Tag) (i : Nat) : Option Tag :=
  tags.find? (fun t => t.id == i)

/-- `Tags.add_tag` (tags.py lines 180-200): if a tag with the submitted
name exists, report `AlreadyExists` and insert nothing; otherwise insert a
new document with the submitted name and description, the caller's author
id, `created_at = now`, and no `last_edited_at`. -/
def add_tag (s : Store) (tag_name author_id tag_description : String)
    (now : Nat) : Except StoreError Store :=
  if (findOne s.tags tag_name).isSome then
    .error .AlreadyExists
  else
    .ok { tags := s.tags ++
            [{ id := s.nextId, name := tag_name,
               description := tag_description, author_id := author_id,
               created_at := now, last_edited_at := none }],
          nextId := s.nextId + 1 }

/-- The field overwrite performed by `Tags.edit_tag` on the document with
the edited id (`tag.name = ...; tag.description = ...;
tag.last_edited_at = ...; tag.save()`): documents with any other id are
untouched. -/
def editFun (tag_id : Nat) (tag_name tag_description : String) (now : Nat)
    (t : Tag) : Tag :=
  if t.id == tag_id then
    { t with name := tag_name, description := tag_description,
             last_edited_at := some now }
  else t

/-- `Tags.edit_tag` (tags.py lines 202-226): resolve the id from the modal;
if no tag has that id, report that the original tag could not be found
(`NotFound`); otherwise overwrite that document's `name` and `description`
with the submitted values, set `last_edited_at := now`, and save it. -/
def edit_tag (s : Store) (tag_id : Nat) (tag_name tag_description : String)
    (now : Nat) : Except StoreError Store :=
  match getById s.tags tag_id with
  | none => .error .NotFound
  | some _ =>
      .ok { s with
            tags := s.tags.map (editFun tag_id tag_name tag_description now) }

/-- `Tags.delete` (tags.py lines 250-261): find the tag with the given
name; if none exists, raise `BadArgument` (`NotFound`); otherwise call
`tag.delete()` on the found document and report success.  The found
document is the first one named `tag_name`, so deleting it removes the
first occurrence of that name. -/
def delete (s : Store) (tag_name : String) : Except StoreError Store :=
  match findOne s.tags tag_name with
  | none => .error .NotFound
  | some _ =>
      .ok { s with tags := s.tags.eraseP (fun t => t.name == tag_name) }

/-- Running a create against the store: on failure the database is
untouched, so the state component stays `s`. -/
def runAdd (s : Store) (tag_name author_id tag_description : String)
    (now : Nat) : Store × Option StoreError :=
  match add_tag s tag_name author_id tag_description now with
  | .ok s' => (s', none)
  | .error e => (s, some e)

/-- Running a delete against the store: on failure the database is
untouched, so the state component stays `s`. -/
def runDelete (s : Store) (tag_name : String) : Store × Option StoreError :=
  match delete s tag_name with
  | .ok s' => (s', none)
  | .error e => (s, some e)

/-- `str.lower()` as used on tag names (ASCII case folding), as the list
of lowered characters. -/
def lowerChars (s : String) : List Char :=
  s.data.map Char.toLower

/-- `needle` starts the list `hay` (character-by-character comparison). -/
def startsWithChars : List Char → List Char → Bool
  | [], _ => true
  | _ :: _, [] => false
  | a :: as, b :: bs => a == b && startsWithChars as bs

/-- Python's `needle in hay` on strings: contiguous-substring containment
over the character lists. -/
def containsChars (needle : List Char) : List Char → Bool
  | [] => needle.isEmpty
  | c :: t => startsWithChars needle (c :: t) || containsChars needle t

/-- `tag_name.lower() in tag.name.lower()` (tags.py line 276): the
case-insensitive substring test of the autocomplete. -/
def nameMatches (query name : String) : Bool :=
  containsChars (lowerChars query) (lowerChars name)

/-- The collection loop of `tag_name_autocomplete` (tags.py lines 273-280):
walk the tags in order, append the name of each match, and break once 25
choices are collected. -/
def acLoop (query : String) : List Tag → List String → List String
  | [], acc => acc
  | t :: ts, acc =>
      let acc' := if nameMatches query t.name then acc ++ [t.name] else acc
      if 25 ≤ acc'.length then acc' else acLoop query ts acc'

/-- `Tags.tag_name_autocomplete` (tags.py lines 267-282): with an empty
query, the names of the first 25 tags (`find_all(limit=25)`); otherwise the
first up-to-25 case-insensitive substring matches.  Each choice's `name`
and `value` are both the tag's name, so we return the list of names. -/
def tag_name_autocomplete (tags : List Tag) (query : String) : List String :=
  if query.data.isEmpty then (tags.take 25).map Tag.name
  else acLoop query tags []

/-- The per-tag summary line of `Tags.list` (tags.py line 88):
`f"\x60 \x7bi+1\x7d \x60 \x7bt.name\x7d\x60"` with `i` the 0-based
position in the full listing. -/
def tagLine (i : Nat) (name : String) : String :=
  "` " ++ toString (i + 1) ++ " ` " ++ name ++ "`"

/-- The full numbered listing `tag_list` of `Tags.list` (tags.py
line 88): each stored tag, in listing order, with its 1-based number. -/
def tagList (tags : List Tag) : List String :=
  tags.enum.map (fun p => tagLine p.1 p.2.name)

/-- The chunking comprehension of `Tags.list` (tags.py line 90):
`[tag_list[x : x + 10] for x in range(0, len(tag_list), 10)]`, each slice
`[x : x+10]` being drop-`x`-take-`10`. -/
def chunksOf (l : List String) : List (List String) :=
  (List.range ((l.length + 9) / 10)).map (fun k => (l.drop (10 * k)).take 10)

/-- The pages built by `Tags.list` (tags.py lines 86-100): the numbered
listing, chunked 10 per page. -/
def listPages (tags : List Tag) : List (List String) :=
  chunksOf (tagList tags)

/-- The name-uniqueness invariant of the spec: no two stored tags share a
name. -/
def namesUnique (s : Store) : Prop :=
  (s.tags.map Tag.name).Nodup

instance (s : Store) : Decidable (namesUnique s) := by
  unfold namesUnique; infer_instance

/-- Ids are pairwise distinct (`_id` is the document primary key). -/
def idsUnique (s : Store) : Prop :=
  (s.tags.map Tag.id).Nodup

instance (s : Store) : Decidable (idsUnique s) := by
  unfold idsUnique; infer_instance

instance : DecidableEq (Except StoreError Store) :=
  fun a b => match a, b with
  | .ok x, .ok y =>
      if h : x = y then .isTrue (by rw [h]) else .isFalse (by simp [h])
  | .error x, .error y =>
      if h : x = y then .isTrue (by rw [h]) else .isFalse (by simp [h])
  | .ok _, .error _ => .isFalse (by simp)
  | .error _, .ok _ => .isFalse (by simp)

/-! ### Helper lemmas about `List.find?` and `List.eraseP` -/

theorem find?_decomp {α : Type} {p : α → Bool} {l : List α} {a : α}
    (h : l.find? p = some a) :
    ∃ l₁ l₂, l = l₁ ++ a :: l₂ ∧ (∀ b ∈ l₁, p b = false) ∧ p a = true := by
  induction l with
  | nil => simp at h
  | cons x xs ih =>
      by_cases hx : p x
      · rw [List.find?_cons_of_pos _ hx] at h
        cases h
        exact ⟨[], xs, rfl, by simp, hx⟩
      · rw [List.find?_cons_of_neg _ hx] at h
        obtain ⟨l₁, l₂, heq, hl₁, hpa⟩ := ih h
        exact ⟨x :: l₁, l₂, by simp [heq], by
          intro b hb
          rcases List.mem_cons.mp hb with hb | hb
          · subst hb; exact Bool.eq_false_iff.mpr hx
          · exact hl₁ b hb, hpa⟩

theorem eraseP_decomp {α : Type} {p : α → Bool} {l₁ l₂ : List α} {a : α}
    (h₁ : ∀ b ∈ l₁, p b = false) (h₂ : p a = true) :
    (l₁ ++ a :: l₂).eraseP p = l₁ ++ l₂ := by
  induction l₁ with
  | nil => simp [List.eraseP_cons, h₂]
  | cons x xs ih =>
      have hx : p x = false := h₁ x (by simp)
      simp only [List.cons_append, List.eraseP_cons, hx, cond_false]
      rw [ih (fun b hb => h₁ b (by simp [hb]))]

theorem map_fix {α : Type} {f : α → α} {l : List α} (h : ∀ a ∈ l, f a = a) :
    l.map f = l := by
  induction l with
  | nil => rfl
  | cons x xs ih => simp [h x (by simp), ih (fun a ha => h a (by simp [ha]))]

/-! ### C1: creating a duplicate name fails and inserts nothing -/

/-- C1: for every store state and every name `n`, if a tag named `n`
already exists, `add_tag` fails with `AlreadyExists` and the store is
unchanged (no tag is inserted). -/
theorem create_duplicate_fails (s : Store) (n a d : String) (now : Nat)
    (h : ∃ t ∈ s.tags, t.name = n) :
    add_tag s n a d now = .error .AlreadyExists ∧
    runAdd s n a d now = (s, some .AlreadyExists) := by
  have hs : (findOne s.tags n).isSome = true := by
    rw [findOne, List.find?_isSome]
    obtain ⟨t, ht, hn⟩ := h
    exact ⟨t, ht, by simp [hn]⟩
  refine ⟨by simp [add_tag, hs], ?_⟩
  simp [runAdd, add_tag, hs]

/-- Witness for C1 at a concrete store holding a tag named "a". -/
theorem create_duplicate_fails_witness :
    add_tag ⟨[⟨0, "a", "d1", "u", 0, none⟩], 1⟩ "a" "u2" "d2" 5
      = .error .AlreadyExists ∧
    runAdd ⟨[⟨0, "a", "d1", "u", 0, none⟩], 1⟩ "a" "u2" "d2" 5
      = (⟨[⟨0, "a", "d1", "u", 0, none⟩], 1⟩, some .AlreadyExists) :=
  create_duplicate_fails ⟨[⟨0, "a", "d1", "u", 0, none⟩], 1⟩ "a" "u2" "d2" 5
    ⟨⟨0, "a", "d1", "u", 0, none⟩, by simp, rfl⟩

/-! ### C3: create then find by exact name returns the created content -/

/-- C3: in a store with no tag named `n`, a create with name `n`,
author `a` and description `d` succeeds, and finding `n` by exact name
afterwards returns a tag whose name is `n` and whose description is `d`. -/
theorem create_then_find_roundtrip (s : Store) (n a d : String) (now : Nat)
    (h : ∀ t ∈ s.tags, t.name ≠ n) :
    ∃ s' t, add_tag s n a d now = .ok s' ∧
      findOne s'.tags n = some t ∧ t.name = n ∧ t.description = d := by
  have hnone : findOne s.tags n = none := by
    rw [findOne, List.find?_eq_none]
    intro t ht
    simp [h t ht]
  refine ⟨⟨s.tags ++ [⟨s.nextId, n, d, a, now, none⟩], s.nextId + 1⟩,
    ⟨s.nextId, n, d, a, now, none⟩,
    by simp [add_tag, hnone], ?_, rfl, rfl⟩
  rw [findOne, List.find?_append]
  rw [findOne] at hnone
  simp [hnone]

/-- Witness for C3 at a concrete store holding only a tag named "b". -/
theorem create_then_find_roundtrip_witness :
    ∃ s' t,
      add_tag ⟨[⟨0, "b", "db", "u", 0, none⟩], 1⟩ "a" "u2" "da" 5 = .ok s' ∧
      findOne s'.tags "a" = some t ∧ t.name = "a" ∧ t.description = "da" :=
  create_then_find_roundtrip ⟨[⟨0, "b", "db", "u", 0, none⟩], 1⟩ "a" "u2" "da" 5
    (by decide)

/-! ### Inversion helpers for `edit_tag` -/

/-- A successful `edit_tag` can only come from a resolving id, and the
resulting store rewrites exactly the documents carrying that id. -/
theorem edit_tag_ok {s : Store} {i : Nat} {n d : String} {now : Nat}
    {s' : Store} (h : edit_tag s i n d now = .ok s') :
    (getById s.tags i).isSome = true ∧
    s' = { s with tags := s.tags.map (editFun i n d now) } := by
  rw [edit_tag] at h
  cases hg : getById s.tags i with
  | none => rw [hg] at h; cases h
  | some t =>
      rw [hg] at h
      exact ⟨by simp, (Except.ok.inj h).symm⟩

/-- The edit's rewriting function fixes the id test. -/
theorem editFun_id_test (i : Nat) (n d : String) (now : Nat) :
    ((fun u : Tag => u.id == i) ∘ editFun i n d now)
      = fun u : Tag => u.id == i := by
  funext u
  by_cases hu : u.id = i <;> simp [editFun, hu]

/-- After a successful edit, looking the id up again returns the stored
document with the submitted name and description and the new edit time. -/
theorem getById_after_edit {s : Store} {i : Nat} {n d : String} {now : Nat}
    {s' : Store} (h : edit_tag s i n d now = .ok s') :
    ∃ t, getById s.tags i = some t ∧
      getById s'.tags i =
        some { t with name := n, description := d,
                      last_edited_at := some now } := by
  obtain ⟨hsome, hs'⟩ := edit_tag_ok h
  cases hg : getById s.tags i with
  | none => rw [hg] at hsome; cases hsome
  | some t =>
      refine ⟨t, rfl, ?_⟩
      rw [getById] at hg
      have hpt : (t.id == i) = true := by
        have hp := List.find?_some hg
        simpa using hp
      subst hs'
      rw [getById, List.find?_map, editFun_id_test, hg]
      simp [editFun, hpt]

/-! ### C4: edit fails with NotFound on a missing id, else stamps the
edit time -/

/-- C4: editing an id that no stored tag carries fails with `NotFound`;
editing an id that does resolve succeeds and sets that tag's
`last_edited_at` to the current time. -/
theorem edit_notfound_and_sets_last_edited (s : Store) (i : Nat)
    (n d : String) (now : Nat) :
    ((∀ t ∈ s.tags, t.id ≠ i) → edit_tag s i n d now = .error .NotFound) ∧
    (∀ t, getById s.tags i = some t →
      ∃ s' t', edit_tag s i n d now = .ok s' ∧
        getById s'.tags i = some t' ∧ t'.last_edited_at = some now) := by
  constructor
  · intro hnone
    have hg : getById s.tags i = none := by
      rw [getById, List.find?_eq_none]
      intro t ht
      simp [hnone t ht]
    rw [edit_tag, hg]
  · intro t hget
    have hok : edit_tag s i n d now
        = .ok { s with tags := s.tags.map (editFun i n d now) } := by
      rw [edit_tag, hget]
    obtain ⟨u, _, hfind⟩ := getById_after_edit hok
    exact ⟨_, _, hok, hfind, rfl⟩

/-- Witness for C4: both branches at concrete stores (id 7 missing, id 0
present). -/
theorem edit_notfound_and_sets_last_edited_witness :
    edit_tag ⟨[⟨0, "a", "d1", "u", 0, none⟩], 1⟩ 7 "x" "y" 5
      = .error .NotFound ∧
    ∃ s' t', edit_tag ⟨[⟨0, "a", "d1", "u", 0, none⟩], 1⟩ 0 "x" "y" 5
      = .ok s' ∧ getById s'.tags 0 = some t' ∧
      t'.last_edited_at = some 5 :=
  ⟨(edit_notfound_and_sets_last_edited ⟨[⟨0, "a", "d1", "u", 0, none⟩], 1⟩
      7 "x" "y" 5).1 (by decide),
   (edit_notfound_and_sets_last_edited ⟨[⟨0, "a", "d1", "u", 0, none⟩], 1⟩
      0 "x" "y" 5).2 ⟨0, "a", "d1", "u", 0, none⟩ (by decide)⟩

/-! ### C5: a successful edit is frame-preserving -/

/-- C5: a successful edit keeps the store the same length and, at every
position, preserves `id`, `created_at` and `author_id`; every tag whose id
is not the edited one is entirely unchanged (and the id counter is
untouched). -/
theorem edit_frame (s : Store) (i : Nat) (n d : String) (now : Nat)
    (s' : Store) (h : edit_tag s i n d now = .ok s') :
    s'.nextId = s.nextId ∧
    s'.tags.length = s.tags.length ∧
    ∀ j (hj : j < s.tags.length) (hj' : j < s'.tags.length),
      (s'.tags.get ⟨j, hj'⟩).id = (s.tags.get ⟨j, hj⟩).id ∧
      (s'.tags.get ⟨j, hj'⟩).created_at = (s.tags.get ⟨j, hj⟩).created_at ∧
      (s'.tags.get ⟨j, hj'⟩).author_id = (s.tags.get ⟨j, hj⟩).author_id ∧
      ((s.tags.get ⟨j, hj⟩).id ≠ i →
        s'.tags.get ⟨j, hj'⟩ = s.tags.get ⟨j, hj⟩) := by
  obtain ⟨-, hs'⟩ := edit_tag_ok h
  subst hs'
  refine ⟨rfl, by simp, ?_⟩
  intro j hj hj'
  by_cases hid : (s.tags.get ⟨j, hj⟩).id = i
  · simp only [List.get_eq_getElem, List.getElem_map] at hid ⊢
    simp [editFun, hid]
  · simp only [List.get_eq_getElem, List.getElem_map] at hid ⊢
    simp [editFun, hid]

/-- Witness for C5 at a concrete two-tag store, editing id 1: the tag
with id 0 is untouched. -/
theorem edit_frame_witness :
    ([⟨0, "a", "d1", "u", 0, none⟩,
      ⟨1, "b", "bb", "v", 1, some 5⟩] : List Tag).length
      = ([⟨0, "a", "d1", "u", 0, none⟩,
          ⟨1, "b", "d2", "v", 1, some 9⟩] : List Tag).length := by
  have h := edit_frame
    ⟨[⟨0, "a", "d1", "u", 0, none⟩, ⟨1, "b", "d2", "v", 1, some 9⟩], 2⟩
    1 "b" "bb" 5
    ⟨[⟨0, "a", "d1", "u", 0, none⟩, ⟨1, "b", "bb", "v", 1, some 5⟩], 2⟩
    (by decide)
  exact h.2.1

/-! ### C10: a successful edit overwrites both submitted fields -/

/-- C10: after a successful edit with submitted name `n` and description
`d`, the edited tag's name is exactly `n` and its description exactly `d`
(the update is never partial). -/
theorem edit_overwrites_both_fields (s : Store) (i : Nat) (n d : String)
    (now : Nat) (s' : Store) (h : edit_tag s i n d now = .ok s') :
    ∃ t', getById s'.tags i = some t' ∧ t'.name = n ∧
      t'.description = d := by
  obtain ⟨t, -, hfind⟩ := getById_after_edit h
  exact ⟨_, hfind, rfl, rfl⟩

/-- Witness for C10: editing id 0 with unchanged name and description
still stores exactly the submitted values. -/
theorem edit_overwrites_both_fields_witness :
    ∃ t', getById ([⟨0, "a", "d1", "u", 0, some 5⟩] : List Tag) 0
        = some t' ∧ t'.name = "a" ∧ t'.description = "d1" :=
  edit_overwrites_both_fields ⟨[⟨0, "a", "d1", "u", 0, none⟩], 1⟩ 0
    "a" "d1" 5 ⟨[⟨0, "a", "d1", "u", 0, some 5⟩], 1⟩ (by decide)

/-! ### C6: delete then find -/

/-- C6 counterexample: a store can hold two tags named "a" (reached from
the empty store by two creates and an edit that renames "b" to "a");
there, deleting the tag named "a" succeeds, yet looking "a" up by exact
name afterwards still returns a tag, not nothing. -/
theorem delete_leaves_duplicate_name :
    add_tag ⟨[], 0⟩ "a" "u" "d1" 0 = .ok ⟨[⟨0, "a", "d1", "u", 0, none⟩], 1⟩ ∧
    add_tag ⟨[⟨0, "a", "d1", "u", 0, none⟩], 1⟩ "b" "u" "d2" 1
      = .ok ⟨[⟨0, "a", "d1", "u", 0, none⟩, ⟨1, "b", "d2", "u", 1, none⟩], 2⟩ ∧
    edit_tag ⟨[⟨0, "a", "d1", "u", 0, none⟩, ⟨1, "b", "d2", "u", 1, none⟩], 2⟩
        1 "a" "d2" 2
      = .ok ⟨[⟨0, "a", "d1", "u", 0, none⟩, ⟨1, "a", "d2", "u", 1, some 2⟩], 2⟩ ∧
    findOne ([⟨0, "a", "d1", "u", 0, none⟩,
              ⟨1, "a", "d2", "u", 1, some 2⟩] : List Tag) "a"
      = some ⟨0, "a", "d1", "u", 0, none⟩ ∧
    delete ⟨[⟨0, "a", "d1", "u", 0, none⟩, ⟨1, "a", "d2", "u", 1, some 2⟩], 2⟩ "a"
      = .ok ⟨[⟨1, "a", "d2", "u", 1, some 2⟩], 2⟩ ∧
    findOne ([⟨1, "a", "d2", "u", 1, some 2⟩] : List Tag) "a"
      = some ⟨1, "a", "d2", "u", 1, some 2⟩ := by
  decide

/-- C6 (amended): in every store state whose tag names are pairwise
distinct (the spec's uniqueness invariant) and which contains a tag named
`n`, deleting `n` succeeds and looking `n` up by exact name afterwards
returns nothing. -/
theorem delete_then_find_none (s : Store) (n : String)
    (hN : namesUnique s) (h : ∃ t ∈ s.tags, t.name = n) :
    ∃ s', delete s n = .ok s' ∧ findOne s'.tags n = none := by
  have hsome : (findOne s.tags n).isSome = true := by
    rw [findOne, List.find?_isSome]
    obtain ⟨t, ht, hn⟩ := h
    exact ⟨t, ht, by simp [hn]⟩
  obtain ⟨t, hfind⟩ := Option.isSome_iff_exists.mp hsome
  obtain ⟨l₁, l₂, heq, hl₁, hpt⟩ := find?_decomp (by rw [findOne] at hfind; exact hfind)
  refine ⟨⟨l₁ ++ l₂, s.nextId⟩, ?_, ?_⟩
  · rw [delete, hfind, heq, eraseP_decomp hl₁ hpt]
  · rw [findOne, List.find?_eq_none]
    intro u hu
    rcases List.mem_append.mp hu with hu | hu
    · simp [hl₁ u hu]
    · have htn : t.name = n := by simpa using hpt
      have hnames : (s.tags.map Tag.name).Nodup := hN
      rw [heq, List.map_append] at hnames
      have h2 := List.Nodup.of_append_right hnames
      rw [List.map_cons, List.nodup_cons] at h2
      have : u.name ≠ t.name := by
        intro hcontra
        exact h2.1 (hcontra ▸ List.mem_map_of_mem Tag.name hu)
      simp [htn ▸ this]

/-- Witness for C6 (amended) at a concrete two-tag store with distinct
names. -/
theorem delete_then_find_none_witness :
    ∃ s', delete ⟨[⟨0, "a", "d1", "u", 0, none⟩,
                   ⟨1, "b", "d2", "u", 1, none⟩], 2⟩ "a" = .ok s' ∧
      findOne s'.tags "a" = none :=
  delete_then_find_none
    ⟨[⟨0, "a", "d1", "u", 0, none⟩, ⟨1, "b", "d2", "u", 1, none⟩], 2⟩ "a"
    (by decide) ⟨⟨0, "a", "d1", "u", 0, none⟩, by simp, rfl⟩

/-! ### C7: delete reports whether a record was removed -/

/-- C7: deleting a name with no existing tag reports `NotFound` and leaves
the store unchanged; deleting an existing name reports success and removes
exactly the found record, leaving every other record in place. -/
theorem delete_reports_removal (s : Store) (n : String) :
    ((∀ t ∈ s.tags, t.name ≠ n) →
      delete s n = .error .NotFound ∧
      runDelete s n = (s, some .NotFound)) ∧
    (∀ t, findOne s.tags n = some t →
      ∃ l₁ l₂, s.tags = l₁ ++ t :: l₂ ∧ t.name = n ∧
        delete s n = .ok ⟨l₁ ++ l₂, s.nextId⟩ ∧
        runDelete s n = (⟨l₁ ++ l₂, s.nextId⟩, none)) := by
  constructor
  · intro hnone
    have hfind : findOne s.tags n = none := by
      rw [findOne, List.find?_eq_none]
      intro t ht
      simp [hnone t ht]
    have hdel : delete s n = .error .NotFound := by rw [delete, hfind]
    exact ⟨hdel, by simp [runDelete, hdel]⟩
  · intro t hfind
    obtain ⟨l₁, l₂, heq, hl₁, hpt⟩ :=
      find?_decomp (by rw [findOne] at hfind; exact hfind)
    have hdel : delete s n = .ok ⟨l₁ ++ l₂, s.nextId⟩ := by
      rw [delete, hfind, heq, eraseP_decomp hl₁ hpt]
    exact ⟨l₁, l₂, heq, by simpa using hpt, hdel, by simp [runDelete, hdel]⟩

/-- Witness for C7: both branches at a concrete one-tag store. -/
theorem delete_reports_removal_witness :
    (delete ⟨[⟨0, "a", "d1", "u", 0, none⟩], 1⟩ "b" = .error .NotFound ∧
     runDelete ⟨[⟨0, "a", "d1", "u", 0, none⟩], 1⟩ "b"
       = (⟨[⟨0, "a", "d1", "u", 0, none⟩], 1⟩, some .NotFound)) ∧
    ∃ l₁ l₂, ([⟨0, "a", "d1", "u", 0, none⟩] : List Tag)
        = l₁ ++ (⟨0, "a", "d1", "u", 0, none⟩ : Tag) :: l₂ ∧
      (⟨0, "a", "d1", "u", 0, none⟩ : Tag).name = "a" ∧
      delete ⟨[⟨0, "a", "d1", "u", 0, none⟩], 1⟩ "a" = .ok ⟨l₁ ++ l₂, 1⟩ ∧
      runDelete ⟨[⟨0, "a", "d1", "u", 0, none⟩], 1⟩ "a"
        = (⟨l₁ ++ l₂, 1⟩, none) :=
  ⟨(delete_reports_removal ⟨[⟨0, "a", "d1", "u", 0, none⟩], 1⟩ "b").1
      (by decide),
   (delete_reports_removal ⟨[⟨0, "a", "d1", "u", 0, none⟩], 1⟩ "a").2
      ⟨0, "a", "d1", "u", 0, none⟩ (by decide)⟩

/-! ### C2: name uniqueness across operations -/

/-- C2 counterexample: starting from the empty store, create "a", create
"b", then edit the tag with id 1 submitting the name "a": the edit
succeeds (`edit_tag` performs no name check) and the resulting store holds
two tags named "a" — the uniqueness invariant is not preserved by a rename
via edit. -/
theorem rename_breaks_name_uniqueness :
    add_tag ⟨[], 0⟩ "a" "u" "d1" 0 = .ok ⟨[⟨0, "a", "d1", "u", 0, none⟩], 1⟩ ∧
    add_tag ⟨[⟨0, "a", "d1", "u", 0, none⟩], 1⟩ "b" "u" "d2" 1
      = .ok ⟨[⟨0, "a", "d1", "u", 0, none⟩, ⟨1, "b", "d2", "u", 1, none⟩], 2⟩ ∧
    namesUnique ⟨[⟨0, "a", "d1", "u", 0, none⟩,
                  ⟨1, "b", "d2", "u", 1, none⟩], 2⟩ ∧
    edit_tag ⟨[⟨0, "a", "d1", "u", 0, none⟩, ⟨1, "b", "d2", "u", 1, none⟩], 2⟩
        1 "a" "d2" 2
      = .ok ⟨[⟨0, "a", "d1", "u", 0, none⟩, ⟨1, "a", "d2", "u", 1, some 2⟩], 2⟩ ∧
    ¬ namesUnique ⟨[⟨0, "a", "d1", "u", 0, none⟩,
                    ⟨1, "a", "d2", "u", 1, some 2⟩], 2⟩ := by
  decide

/-- C2 (amended): create and delete preserve the name-uniqueness
invariant; an edit preserves it provided the submitted name is the edited
tag's current name or no stored tag carries the submitted name (ids are
pairwise distinct, being primary keys). -/
theorem name_uniqueness_preservation (s : Store) :
    (∀ n a d now s', namesUnique s → add_tag s n a d now = .ok s' →
      namesUnique s') ∧
    (∀ n s', namesUnique s → delete s n = .ok s' → namesUnique s') ∧
    (∀ i n d now s' t, namesUnique s → idsUnique s →
      getById s.tags i = some t →
      (n = t.name ∨ ∀ u ∈ s.tags, u.name ≠ n) →
      edit_tag s i n d now = .ok s' → namesUnique s') := by
  refine ⟨?_, ?_, ?_⟩
  · intro n a d now s' hN hok
    rw [add_tag] at hok
    by_cases hf : (findOne s.tags n).isSome = true
    · simp [hf] at hok
    · simp only [hf, if_false, Bool.false_eq_true] at hok
      have hnone : findOne s.tags n = none :=
        Option.not_isSome_iff_eq_none.mp (by simpa using hf)
      obtain rfl := Except.ok.inj hok
      rw [findOne, List.find?_eq_none] at hnone
      show (List.map Tag.name (s.tags ++ [_])).Nodup
      rw [List.map_append, List.map_cons, List.map_nil]
      rw [List.nodup_append]
      refine ⟨hN, by simp, ?_⟩
      intro x hx
      obtain ⟨u, hu, rfl⟩ := List.mem_map.mp hx
      have := hnone u hu
      simp at this ⊢
      exact this
  · intro n s' hN hok
    rw [delete] at hok
    cases hf : findOne s.tags n with
    | none => rw [hf] at hok; cases hok
    | some t =>
        rw [hf] at hok
        obtain rfl := Except.ok.inj hok
        show (List.map Tag.name (s.tags.eraseP _)).Nodup
        exact hN.sublist ((List.eraseP_sublist s.tags).map Tag.name)
  · intro i n d now s' t hN hI hget hcond hok
    obtain ⟨-, hs'⟩ := edit_tag_ok hok
    rw [getById] at hget
    obtain ⟨l₁, l₂, heq, hl₁, hpt⟩ := find?_decomp hget
    have hti : t.id = i := by simpa using hpt
    have hids : (List.map Tag.id s.tags).Nodup := hI
    rw [heq, List.map_append, List.map_cons] at hids
    rw [List.nodup_append] at hids
    obtain ⟨-, hids2, hdisj⟩ := hids
    rw [List.nodup_cons] at hids2
    have hl₂fix : ∀ b ∈ l₂, editFun i n d now b = b := by
      intro b hb
      have hbne : b.id ≠ t.id := by
        intro hcontra
        exact hids2.1 (hcontra ▸ List.mem_map_of_mem Tag.id hb)
      rw [editFun, if_neg (by simp [hti ▸ hbne])]
    have hl₁fix : ∀ b ∈ l₁, editFun i n d now b = b := by
      intro b hb
      rw [editFun, if_neg (by simp [hl₁ b hb])]
    have hsplit : s'.tags = l₁ ++
        ({ t with name := n, description := d,
                  last_edited_at := some now } :: l₂) := by
      rw [hs']
      show s.tags.map _ = _
      rw [heq, List.map_append, List.map_cons, map_fix hl₁fix,
        map_fix hl₂fix, editFun, if_pos hpt]
    show (s'.tags.map Tag.name).Nodup
    rw [hsplit, List.map_append, List.map_cons]
    have hNold : (List.map Tag.name l₁
        ++ t.name :: List.map Tag.name l₂).Nodup := by
      have := hN
      rw [namesUnique, heq, List.map_append, List.map_cons] at this
      exact this
    rcases hcond with rfl | hnew
    · simpa using hNold
    · rw [List.nodup_append] at hNold ⊢
      obtain ⟨h1, h2, h3⟩ := hNold
      rw [List.nodup_cons] at h2
      refine ⟨h1, ?_, ?_⟩
      · rw [List.nodup_cons]
        refine ⟨?_, h2.2⟩
        intro hmem
        obtain ⟨u, hu, hun⟩ := List.mem_map.mp hmem
        exact hnew u (heq ▸ List.mem_append_right l₁ (List.mem_cons_of_mem t hu)) hun
      · intro x hx
        obtain ⟨u, hu, rfl⟩ := List.mem_map.mp hx
        have hxt : u.name ∉ t.name :: List.map Tag.name l₂ :=
          fun hmem => h3 hx hmem
        intro hmem
        rcases List.mem_cons.mp hmem with hcontra | hmem2
        · exact hnew u (heq ▸ List.mem_append_left _ hu) hcontra
        · exact hxt (List.mem_cons_of_mem _ hmem2)

/-- Witness for C2 (amended): the three preservation statements applied
at a concrete two-tag store (a create of "c", a delete of "a", and an
in-place edit of id 1). -/
theorem name_uniqueness_preservation_witness :
    namesUnique ⟨[⟨0, "a", "d1", "u", 0, none⟩, ⟨1, "b", "d2", "u", 1, none⟩,
                  ⟨2, "c", "d3", "u2", 5, none⟩], 3⟩ ∧
    namesUnique ⟨[⟨1, "b", "d2", "u", 1, none⟩], 2⟩ ∧
    namesUnique ⟨[⟨0, "a", "d1", "u", 0, none⟩,
                  ⟨1, "b", "dd", "u", 1, some 7⟩], 2⟩ := by
  have base := name_uniqueness_preservation
    ⟨[⟨0, "a", "d1", "u", 0, none⟩, ⟨1, "b", "d2", "u", 1, none⟩], 2⟩
  refine ⟨base.1 "c" "u2" "d3" 5 _ (by decide) (by decide),
    base.2.1 "a" _ (by decide) (by decide),
    base.2.2 1 "b" "dd" 7 _ ⟨1, "b", "d2", "u", 1, none⟩ (by decide)
      (by decide) (by decide) (Or.inl rfl) (by decide)⟩

/-! ### C8: autocomplete is a capped case-insensitive substring filter -/

/-- The autocomplete loop collects, in listing order, the names of the
matching tags until 25 choices are held. -/
theorem acLoop_spec (q : String) :
    ∀ (ts : List Tag) (acc : List String), acc.length < 25 →
      acLoop q ts acc = acc ++
        (((ts.filter (fun t => nameMatches q t.name)).map Tag.name).take
          (25 - acc.length))
  | [], acc => by
      intro h
      simp [acLoop]
  | t :: ts, acc => by
      intro hacc
      rw [List.filter_cons]
      cases hm : nameMatches q t.name with
      | false =>
          have hstep : acLoop q (t :: ts) acc = acLoop q ts acc := by
            simp only [acLoop, hm, Bool.false_eq_true, if_false]
            rw [if_neg (by omega : ¬ 25 ≤ acc.length)]
          rw [hstep, acLoop_spec q ts acc hacc]
          simp [hm]
      | true =>
          have hstep : acLoop q (t :: ts) acc
              = if 25 ≤ (acc ++ [t.name]).length then acc ++ [t.name]
                else acLoop q ts (acc ++ [t.name]) := by
            simp [acLoop, hm]
          rw [hstep]
          simp only [hm, if_true, List.map_cons]
          by_cases hfull : 25 ≤ (acc ++ [t.name]).length
          · rw [if_pos hfull]
            have h1 : 25 - acc.length = 0 + 1 := by
              simp only [List.length_append, List.length_cons,
                List.length_nil] at hfull
              omega
            rw [h1, List.take_succ_cons, List.take_zero]
          · rw [if_neg hfull]
            have hlt : (acc ++ [t.name]).length < 25 := by omega
            rw [acLoop_spec q ts (acc ++ [t.name]) hlt]
            have h2 : 25 - acc.length
                = (25 - (acc ++ [t.name]).length) + 1 := by
              simp only [List.length_append, List.length_cons,
                List.length_nil] at hlt ⊢
              omega
            rw [h2, List.take_succ_cons, List.append_assoc]
            rfl

/-- C8: for a non-empty query, the autocomplete returns exactly the names
of the tags whose name contains the query as a case-insensitive substring,
in listing order, capped at 25 results. -/
theorem autocomplete_filter_spec (tags : List Tag) (q : String)
    (h : q ≠ "") :
    tag_name_autocomplete tags q
      = ((tags.filter (fun t => nameMatches q t.name)).map Tag.name).take 25 := by
  have hd : q.data.isEmpty = false := by
    cases hq : q.data with
    | nil =>
        exfalso
        apply h
        cases q
        simp_all [String.ext_iff]
    | cons c cs => rfl
  rw [tag_name_autocomplete, if_neg (by simp [hd])]
  simpa using acLoop_spec q tags [] (by simp)

/-- Witness for C8: the query "d.py" finds the tag named "d.py cogs" and
not the tag named "other". -/
theorem autocomplete_filter_spec_witness :
    tag_name_autocomplete
      [⟨0, "d.py cogs", "x", "u", 0, none⟩, ⟨1, "other", "y", "u", 1, none⟩]
      "d.py" = ["d.py cogs"] :=
  (autocomplete_filter_spec
    [⟨0, "d.py cogs", "x", "u", 0, none⟩, ⟨1, "other", "y", "u", 1, none⟩]
    "d.py" (by decide)).trans (by decide)

/-! ### C9: the list display pages the numbered listing 10 per page -/

theorem chunksOf_nil : chunksOf [] = [] := rfl

/-- The slicing comprehension consumes ten entries per step. -/
theorem chunksOf_cons (a : String) (l : List String) :
    chunksOf (a :: l) = (a :: l).take 10 :: chunksOf ((a :: l).drop 10) := by
  rw [chunksOf, chunksOf]
  have h1 : ((a :: l).length + 9) / 10 = l.length / 10 + 1 := by
    simp only [List.length_cons]
    omega
  have h2 : (((a :: l).drop 10).length + 9) / 10 = l.length / 10 := by
    simp only [List.length_drop, List.length_cons]
    omega
  rw [h1, h2, List.range_succ_eq_map, List.map_cons, List.map_map]
  congr 1
  apply List.map_congr_left
  intro k hk
  simp only [Function.comp_apply]
  rw [List.drop_drop]
  have h4 : 10 * Nat.succ k = 10 + 10 * k := by omega
  rw [h4]

/-- Concatenating the chunks restores the original listing. -/
theorem chunksOf_flatten : ∀ l : List String, (chunksOf l).flatten = l
  | [] => by rw [chunksOf_nil]; rfl
  | a :: l => by
      rw [chunksOf_cons, List.flatten_cons,
        chunksOf_flatten ((a :: l).drop 10), List.take_append_drop]
  termination_by l => l.length
  decreasing_by simp only [List.length_drop, List.length_cons]; omega

/-- Every chunk is non-empty and holds at most ten entries. -/
theorem chunksOf_mem : ∀ l : List String, ∀ c ∈ chunksOf l,
    c ≠ [] ∧ c.length ≤ 10
  | [] => by rw [chunksOf_nil]; intro c hc; cases hc
  | a :: l => by
      rw [chunksOf_cons]
      intro c hc
      rcases List.mem_cons.mp hc with rfl | hc
      · refine ⟨by simp, ?_⟩
        rw [List.length_take]
        omega
      · exact chunksOf_mem ((a :: l).drop 10) c hc
  termination_by l => l.length
  decreasing_by simp only [List.length_drop, List.length_cons]; omega

/-- Every chunk except possibly the last holds exactly ten entries. -/
theorem chunksOf_dropLast : ∀ l : List String,
    ∀ c ∈ (chunksOf l).dropLast, c.length = 10
  | [] => by rw [chunksOf_nil]; intro c hc; cases hc
  | a :: l => by
      rw [chunksOf_cons]
      intro c hc
      cases hrest : chunksOf ((a :: l).drop 10) with
      | nil => rw [hrest] at hc; cases hc
      | cons r rs =>
          rw [hrest, List.dropLast_cons₂] at hc
          rcases List.mem_cons.mp hc with rfl | hc
          · have hne : (a :: l).drop 10 ≠ [] := by
              intro hnil
              rw [hnil, chunksOf_nil] at hrest
              cases hrest
            have hlen : 0 < ((a :: l).drop 10).length :=
              List.length_pos.mpr hne
            rw [List.length_drop, List.length_cons] at hlen
            rw [List.length_take, List.length_cons]
            omega
          · exact chunksOf_dropLast ((a :: l).drop 10) c (hrest ▸ hc)
  termination_by l => l.length
  decreasing_by simp only [List.length_drop, List.length_cons]; omega

/-- C9: the list display partitions the numbered listing into consecutive
pages: concatenating the pages yields every tag exactly once, in listing
order, as its summary line with its 1-based position number; every page
holds at most 10 entries, none is empty, and every page except possibly
the last holds exactly 10. -/
theorem list_pages_partition (tags : List Tag) :
    (listPages tags).flatten
      = tags.enum.map (fun p => tagLine p.1 p.2.name) ∧
    (∀ c ∈ listPages tags, c ≠ [] ∧ c.length ≤ 10) ∧
    (∀ c ∈ (listPages tags).dropLast, c.length = 10) :=
  ⟨chunksOf_flatten (tagList tags), chunksOf_mem (tagList tags),
    chunksOf_dropLast (tagList tags)⟩

/-- A concrete 12-tag store for the C9 witness. -/
def tagsEx12 : List Tag :=
  [⟨0, "a", "d", "u", 0, none⟩, ⟨1, "b", "d", "u", 0, none⟩,
   ⟨2, "c", "d", "u", 0, none⟩, ⟨3, "d", "d", "u", 0, none⟩,
   ⟨4, "e", "d", "u", 0, none⟩, ⟨5, "f", "d", "u", 0, none⟩,
   ⟨6, "g", "d", "u", 0, none⟩, ⟨7, "h", "d", "u", 0, none⟩,
   ⟨8, "i", "d", "u", 0, none⟩, ⟨9, "j", "d", "u", 0, none⟩,
   ⟨10, "k", "d", "u", 0, none⟩, ⟨11, "l", "d", "u", 0, none⟩]

/-- Witness for C9: with 12 tags, the first page is full (10 entries). -/
theorem list_pages_partition_witness :
    ([tagLine 0 "a", tagLine 1 "b", tagLine 2 "c", tagLine 3 "d",
      tagLine 4 "e", tagLine 5 "f", tagLine 6 "g", tagLine 7 "h",
      tagLine 8 "i", tagLine 9 "j"] : List String).length = 10 :=
  (list_pages_partition tagsEx12).2.2
    [tagLine 0 "a", tagLine 1 "b", tagLine 2 "c", tagLine 3 "d",
     tagLine 4 "e", tagLine 5 "f", tagLine 6 "g", tagLine 7 "h",
     tagLine 8 "i", tagLine 9 "j"] (by decide)

end SlashBot
